/-
Verification of the chunking / multi-strategy merge / validate-repair core
of the artifact-specs CLI (Go), via a shallow embedding in Lean 4.

Modelling conventions:
* Go strings are modelled as `List Char` (sequences of Unicode scalars).
  `utf8.RuneCountInString` is the list length.  Go's byte-level `len` and
  byte indexing in `forceSplit` coincide with scalar-level length and
  indexing on ASCII text; all concrete inputs used below are ASCII.
* Machine arithmetic: Go's
    `tokenEstimate := int(float64(charCount) / 4.0)`
  is exact floor division by 4 (division by a power of two is exact in
  binary floating point), and
    `int(float64(tokenEstimate) * 1.1)`
  equals `tokenEstimate * 11 / 10` in integer arithmetic for every
  `tokenEstimate` below 2^47: when `11*t/10` is not an integer its
  distance to the nearest integer is at least 1/10, far above the
  rounding error, and when it is an integer the product
  `t * (1.1 + 2^-53ish)` rounds to a value in `[11t/10, 11t/10 + ulp)`
  whose truncation is `11t/10`.  Similarly
    `charLimit := int(float64(maxTokens) * 4.0 * 0.8)`
  equals `maxTokens * 16 / 5`.
* Loops are modelled by structural recursion; the one loop whose
  termination is data-dependent (`ChunkText`'s outer loop) uses explicit
  fuel `text.length + 1`, which is enough because every iteration
  consumes at least one character of the remaining text.
-/
import Mathlib

set_option maxHeartbeats 1000000
set_option maxRecDepth 10000

/-- Convert a Lean string literal to the `List Char` representation used
throughout this development. -/
def str (s : String) : List Char := s.data

/-! ## TokenCounter (src/cli/internal/chunking/tokenizer.go)

`TokenCounter` carries only the constant `charsPerToken = 4.0`, so it is
not reified; `NewTokenCounter` is the identity of this constant. -/

/-- Go `(*TokenCounter).CountTokens`: rune count, divided by 4 (chars per
token), times the 1.1 buffer multiplier, with all `int` truncations made
explicit (see the float-collapse argument in the header comment). -/
def countTokens (text : List Char) : Nat :=
  if text = [] then 0
  else text.length / 4 * 11 / 10

/-! ## strings.Split / strings.Join over `List Char` -/

/-- Decide whether `p` is a leading segment of `l` (Go's internal
sub-string match used by `strings.Split`). -/
def leadsWith : List Char → List Char → Bool
  | [], _ => true
  | _ :: _, [] => false
  | a :: as, b :: bs => a = b && leadsWith as bs

/-- Index of the first occurrence of `sep` in `s`, if any
(`strings.Index`). -/
def firstSepIdx (sep : List Char) : List Char → Option Nat
  | [] => if leadsWith sep [] then some 0 else none
  | c :: rest =>
    if leadsWith sep (c :: rest) then some 0
    else (firstSepIdx sep rest).map (· + 1)

/-- Fuel-driven worker for `strings.Split`: split off the text before
each occurrence of `sep`.  One unit of fuel per produced part; fuel
`s.length + 1` always suffices for a non-empty separator. -/
def splitAux (sep : List Char) : Nat → List Char → List (List Char)
  | 0, s => [s]
  | fuel + 1, s =>
    match firstSepIdx sep s with
    | none => [s]
    | some i => s.take i :: splitAux sep fuel (s.drop (i + sep.length))

/-- Go `strings.Split(s, sep)` for a non-empty separator. -/
def splitOn (sep s : List Char) : List (List Char) :=
  splitAux sep (s.length + 1) s

/-- Go `strings.Join(parts, sep)`. -/
def joinSep (sep : List Char) : List (List Char) → List Char
  | [] => []
  | [x] => x
  | x :: y :: ys => x ++ sep ++ joinSep sep (y :: ys)

/-! ## Chunker (src/cli/internal/chunking/tokenizer.go)

The `Chunker` struct carries only `maxTokens` (its `tokenCounter` is the
constant-parameter `TokenCounter`), so each method takes `max : Nat`
directly. -/

/-- The builder loop inside `tryBoundary`.  Arguments mirror the Go
code: `all` is the full `parts` slice and `orig` the full input text;
the loop walks `restParts = parts[i:]` carrying the builder `current`
and the counter `used`. -/
def tbLoop (max : Nat) (boundary : List Char) (all : List (List Char))
    (orig : List Char) :
    List (List Char) → Nat → List Char → Nat → List Char × List Char
  | [], _, current, _ => (current, [])
  | part :: restParts, i, current, used =>
    let candidate := current ++ (if 0 < i then boundary else []) ++ part
    if max < countTokens candidate then
      if used = 0 then ([], orig)
      else (current, joinSep boundary (all.drop used))
    else
      tbLoop max boundary all orig restParts (i + 1)
        (current ++ (if 0 < i then boundary else []) ++ part) (i + 1)

/-- Go `(*Chunker).tryBoundary`: split at `boundary` and greedily
accumulate parts while the token estimate stays within `max`. -/
def tryBoundary (max : Nat) (text boundary : List Char) :
    List Char × List Char :=
  let parts := splitOn boundary text
  if parts.length ≤ 1 then ([], text)
  else tbLoop max boundary parts text parts 0 [] 0

/-- The fixed boundary list of `findOptimalChunk`, coarse to fine. -/
def boundaries : List (List Char) :=
  [str "\n\n\n", str "\n\n", str "\n", str ". ", str "? ", str "! ",
   str ", ", str " "]

/-- Go `(*Chunker).findOptimalChunk`: keep the longest chunk produced by
any boundary. -/
def findOptimalChunk (max : Nat) (text : List Char) :
    List Char × List Char :=
  if countTokens text ≤ max then (text, [])
  else
    boundaries.foldl
      (fun best b =>
        let cr := tryBoundary max text b
        if cr.1 ≠ [] ∧ best.1.length < cr.1.length then cr else best)
      ([], text)

/-- The three byte values `forceSplit` accepts as a cut point
(`' '`, `'\n'`, `'\t'`). -/
def cutWs (c : Char) : Bool :=
  c = ' ' || c = '\n' || c = '\t'

/-- The backward walk in `forceSplit`: from `charLimit` down, stop at
the first index holding a space, newline or tab; reach 0 otherwise.
(The Go loop condition `cutPoint < len(text)` is invariantly true since
the initial `charLimit` is below `len(text)` in the only call site of
this walk.) -/
def walkBack (text : List Char) : Nat → Nat
  | 0 => 0
  | k + 1 => if cutWs (text.getD (k + 1) 'x') then k + 1 else walkBack text k

/-- Go's `unicode.IsSpace` (the White_Space property), used by
`strings.TrimSpace`. -/
def goIsSpace (c : Char) : Bool :=
  c = '\t' || c = '\n' || c.val = 11 || c.val = 12 || c = '\r' || c = ' ' ||
  c.val = 0x85 || c.val = 0xA0 || c.val = 0x1680 ||
  (0x2000 ≤ c.val && c.val ≤ 0x200A) ||
  c.val = 0x2028 || c.val = 0x2029 || c.val = 0x202F || c.val = 0x205F ||
  c.val = 0x3000

/-- Go `strings.TrimSpace`: drop leading and trailing White_Space. -/
def trimSpace (s : List Char) : List Char :=
  ((s.dropWhile goIsSpace).reverse.dropWhile goIsSpace).reverse

/-- Go `(*Chunker).forceSplit`: hard split at a character limit derived
from the budget (`int(maxTokens * 4.0 * 0.8) = 16*max/5`), walking back
to the nearest whitespace. -/
def forceSplit (max : Nat) (text : List Char) : List Char × List Char :=
  let charLimit := max * 16 / 5
  if text.length ≤ charLimit then (text, [])
  else
    let w := walkBack text charLimit
    let cut := if w = 0 then charLimit else w
    (text.take cut, trimSpace (text.drop cut))

/-- The `for len(remaining) > 0 && CountTokens(remaining) > maxTokens`
loop of `ChunkText`, including the trailing
`if len(TrimSpace(remaining)) > 0` append.  Fuel decreases once per
iteration; `remaining.length + 1` fuel is always sufficient. -/
def chunkLoop (max : Nat) : Nat → List Char → List (List Char)
  | 0, _ => []
  | fuel + 1, remaining =>
    if remaining ≠ [] ∧ max < countTokens remaining then
      let p := findOptimalChunk max remaining
      let q := if p.1 = [] then forceSplit max remaining else p
      q.1 :: chunkLoop max fuel q.2
    else if trimSpace remaining ≠ [] then [remaining] else []

/-- Go `(*Chunker).ChunkText` (its Go `error` result is always `nil`). -/
def chunkText (max : Nat) (text : List Char) : List (List Char) :=
  if countTokens text ≤ max then [text]
  else chunkLoop max (text.length + 1) text

/-- Go `(*Chunker).GetEstimatedChunkCount`. -/
def getEstimatedChunkCount (max : Nat) (text : List Char) : Nat :=
  let totalTokens := countTokens text
  if totalTokens ≤ max then 1
  else (totalTokens + max - 1) / max

/-! ## Reconstruction vocabulary for the chunking invariant

`ChunkText` drops the delimiter it split on between consecutive chunks
(and whitespace trimmed at forced splits).  `weave` re-inserts one
separator before each chunk and one after the last, so
`weave seps chunks = text` with `seps.length = chunks.length + 1` states
"concatenating the chunks reconstructs the text up to the dropped
separators". -/

/-- Interleave separators and chunks:
`s₀ ++ c₁ ++ s₁ ++ c₂ ++ ⋯ ++ cₖ ++ sₖ` (intended with one more
separator than chunks). -/
def weave : List (List Char) → List (List Char) → List Char
  | [], _ => []
  | s :: _, [] => s
  | s :: ss, c :: cs => s ++ c ++ weave ss cs

/-- Append `w` to the last separator of a separator list. -/
def appendLast (w : List Char) : List (List Char) → List (List Char)
  | [] => [w]
  | [s] => [s ++ w]
  | s :: t :: ts => s :: appendLast w (t :: ts)

/-- Characters a dropped separator may consist of: Go whitespace, or the
punctuation of the sentence/clause boundaries `". "`, `"? "`, `"! "`,
`", "`. -/
def sepCharOK (c : Char) : Bool :=
  goIsSpace c || c = '.' || c = '?' || c = '!' || c = ','

/-! ## Validator (src/cli/internal/validate/validator.go)

`Validator.Validate` parses JSON and checks the compiled schema through
the external `github.com/kaptinlin/jsonschema` library; schema validity
is therefore treated as an opaque function `validate` supplied to
`ValidateAndRetry`, exactly as the claims quantify over it.  The
provider (`llmClient.Complete`) is a function from the index of the
call (number of calls already issued) and the prompt to `none`
(provider error) or `some content`. -/

/-- Go `validate.ValidationError`: a `(path, message)` finding. -/
structure VError where
  path : List Char
  message : List Char
deriving DecidableEq

/-- Go `validate.ValidationResult`. -/
structure ValidationResult where
  valid : Bool
  errors : List VError
deriving DecidableEq

/-- The `error` values `ValidateAndRetry` can return. -/
inductive VARErr where
  /-- Error "initial completion failed: %w". -/
  | initialFailed
  /-- Error "retry attempt %d failed: %w". -/
  | retryFailed (attempt : Nat)
  /-- Error "validation failed after %d retries". -/
  | exhausted (maxRetries : Nat)
deriving DecidableEq

/-- Go `(*Validator).createRepairPrompt`. -/
def createRepairPrompt (originalPrompt invalidJSON : List Char)
    (result : ValidationResult) : List Char :=
  let errorMessages :=
    joinSep (str "\n")
      (result.errors.map (fun e => str "- " ++ e.path ++ str ": " ++ e.message))
  str "The previous response was invalid JSON according to the schema. Please fix the following validation errors and provide a corrected JSON response:\n\nValidation errors:\n" ++
    errorMessages ++
    str "\n\nOriginal prompt: " ++ originalPrompt ++
    str "\n\nInvalid JSON response:\n" ++ invalidJSON ++
    str "\n\nPlease provide a corrected JSON response that follows the schema exactly:"

/-- The `for attempt := 1; attempt <= maxRetries; attempt++` repair loop
of `ValidateAndRetry`.  `rem` is the number of attempts left
(`maxRetries - attempt + 1`), `calls` the number of provider calls
already issued.  Returns (payload, result, error, total calls issued),
each `Option` mirroring Go's nilable returns. -/
def retryLoop (validate : List Char → ValidationResult)
    (complete : Nat → List Char → Option (List Char))
    (input : List Char) (maxRetries : Nat) :
    Nat → Nat → List Char → ValidationResult → Nat →
    Option (List Char) × Option ValidationResult × Option VARErr × Nat
  | 0, _, data, result, calls =>
    (some data, some result, some (.exhausted maxRetries), calls)
  | rem + 1, attempt, data, result, calls =>
    let repairPrompt := createRepairPrompt input data result
    match complete calls repairPrompt with
    | none => (none, some result, some (.retryFailed attempt), calls + 1)
    | some content =>
      let result' := validate content
      if result'.valid then (some content, some result', none, calls + 1)
      else
        retryLoop validate complete input maxRetries rem (attempt + 1)
          content result' (calls + 1)

/-- Go `(*Validator).ValidateAndRetry`, instrumented with the number of
provider calls issued (the fourth component). -/
def validateAndRetry (validate : List Char → ValidationResult)
    (complete : Nat → List Char → Option (List Char))
    (input : List Char) (maxRetries : Nat) :
    Option (List Char) × Option ValidationResult × Option VARErr × Nat :=
  match complete 0 input with
  | none => (none, none, some .initialFailed, 1)
  | some content =>
    let result := validate content
    if result.valid then (some content, some result, none, 1)
    else retryLoop validate complete input maxRetries maxRetries 1 content result 1

/-! ## Merger (src/cli/internal/chunking/merger.go)

Text and prompts stay `List Char`.  The provider is again
`complete : call index → prompt → Option content`.  Every operation
returns its result together with the list of prompts it issued, in
order, so call counts and call sequences are observable. -/

/-- Go `specs.Spec`, restricted to the fields the merger reads. -/
structure Spec where
  title : List Char
  slug : List Char
  schema : List Char
deriving DecidableEq

/-- Go `chunking.MergeOptions`. -/
structure MergeOptions where
  strategy : List Char
  instructions : List Char
  maxRetries : Nat
  showStats : Bool
deriving DecidableEq

/-- Go `chunking.Merger` (its `client` is passed separately as `complete`). -/
structure Merger where
  spec : Spec
  options : MergeOptions
deriving DecidableEq

/-- Go `chunking.ChunkResult`, restricted to the fields the engine sets on
success (`Stats` carries provider metadata and `Error` is always `nil`
in constructed values). -/
structure ChunkResult where
  chunkIndex : Int
  content : List Char
  jsonData : List Char
deriving DecidableEq

/-- The error values of the merge engine, mirroring its `fmt.Errorf`
wrapping structure. -/
inductive MergeErr where
  /-- Error "no chunks to process". -/
  | noChunks
  /-- Error "unknown merge strategy: %s". -/
  | unknownStrategy (s : List Char)
  /-- Error "extraction failed: %w". -/
  | extractionFailed
  /-- Error "merge failed: %w". -/
  | mergeCallFailed
  /-- Error "consolidation failed: %w". -/
  | consolidationCallFailed
  /-- Error "failed to process first chunk: %w". -/
  | wrapFirstChunk (e : MergeErr)
  /-- Error "failed to merge chunk %d: %w". -/
  | wrapMergeChunk (i : Nat) (e : MergeErr)
  /-- Error "failed to process chunk %d: %w". -/
  | wrapChunk (i : Nat) (e : MergeErr)
deriving DecidableEq

/-- The constant `chunking.StrategyIncremental`. -/
def strategyIncremental : List Char := str "incremental"

/-- The constant `chunking.StrategyTwoPass`. -/
def strategyTwoPass : List Char := str "two-pass"

/-- The constant `chunking.StrategyTemplateDriven`. -/
def strategyTemplateDriven : List Char := str "template-driven"

/-- Decimal rendering of a natural number (Go's `%d`). -/
def natStr (n : Nat) : List Char := (Nat.repr n).data

/-- The `schemaTitle` fallback computed in each prompt builder:
`m.spec.Title`, or `m.spec.Slug` when the title is empty. -/
def schemaTitle (m : Merger) : List Char :=
  if m.spec.title = [] then m.spec.slug else m.spec.title

/-- Go `(*Merger).createExtractionPrompt`. -/
def createExtractionPrompt (m : Merger) (chunk : List Char) : List Char :=
  str "Extract structured data from the following input according to the \"" ++
    schemaTitle m ++
    str "\" specification.\n\nInstructions:\n- Extract only information that is explicitly present in this chunk\n- Do not invent or infer information not directly stated\n- Leave fields empty/null if the information is not available in this chunk\n- Follow the JSON schema structure exactly\n- This is part of a larger document, so partial information is expected\n\nInput:\n" ++
    chunk ++
    str "\n\nJSON Schema Reference:\n" ++ m.spec.schema ++
    str "\n\nProvide the extracted data as valid JSON:"

/-- The default merge instruction block of `createMergePrompt`. -/
def mergeInstrDefault : List Char :=
  str "Merge the new data with the existing data:\n- Combine arrays by appending new items\n- Update object fields with new information\n- Preserve existing data when not conflicted\n- Use new data to fill in missing fields\n- When data conflicts, prefer the new data"

/-- Go `(*Merger).createMergePrompt`. -/
def createMergePrompt (m : Merger) (previousJSON newChunk : List Char) :
    List Char :=
  let instructions :=
    if m.options.instructions = [] then mergeInstrDefault
    else m.options.instructions
  str "You have existing extracted data and a new chunk of text to process. Merge the new information with the existing data according to the \"" ++
    schemaTitle m ++
    str "\" specification.\n\n" ++ instructions ++
    str "\n\nExisting extracted data:\n" ++ previousJSON ++
    str "\n\nNew chunk to merge:\n" ++ newChunk ++
    str "\n\nJSON Schema Reference:\n" ++ m.spec.schema ++
    str "\n\nProvide the merged result as valid JSON that follows the schema:"

/-- The default consolidation instruction block of
`createConsolidationPrompt`. -/
def consInstrDefault : List Char :=
  str "Consolidate all the partial results into a single comprehensive result:\n- Merge arrays by combining all items\n- Merge objects by combining all fields\n- Remove duplicates where appropriate\n- Ensure the final result follows the schema structure"

/-- The `"Result %d:\n%s\n\n"` accumulation loop of
`createConsolidationPrompt` (`i` is the zero-based loop index). -/
def resultsBlock : Nat → List (List Char) → List Char
  | _, [] => []
  | i, j :: rest =>
    str "Result " ++ natStr (i + 1) ++ str ":\n" ++ j ++ str "\n\n" ++
      resultsBlock (i + 1) rest

/-- Go `(*Merger).createConsolidationPrompt`. -/
def createConsolidationPrompt (m : Merger) (jsonResults : List (List Char)) :
    List Char :=
  let instructions :=
    if m.options.instructions = [] then consInstrDefault
    else m.options.instructions
  str "Consolidate the following partial extraction results into a single comprehensive result.\n\n" ++
    instructions ++
    str "\n\nPartial results to consolidate:\n" ++ resultsBlock 0 jsonResults ++
    str "\n\nJSON Schema Reference:\n" ++ m.spec.schema ++
    str "\n\nProvide the consolidated result as valid JSON:"

/-- Go `(*Merger).processSingleChunk`.  Here `k` is the number of provider calls
issued before this one. -/
def processSingleChunk (m : Merger)
    (complete : Nat → List Char → Option (List Char))
    (k : Nat) (chunk : List Char) (index : Int) :
    Except MergeErr ChunkResult × List (List Char) :=
  let prompt := createExtractionPrompt m chunk
  match complete k prompt with
  | none => (.error .extractionFailed, [prompt])
  | some content => (.ok ⟨index, chunk, content⟩, [prompt])

/-- Go `(*Merger).mergeWithPrevious`. -/
def mergeWithPrevious (m : Merger)
    (complete : Nat → List Char → Option (List Char))
    (k : Nat) (previousJSON newChunk : List Char) (chunkIndex : Int) :
    Except MergeErr ChunkResult × List (List Char) :=
  let prompt := createMergePrompt m previousJSON newChunk
  match complete k prompt with
  | none => (.error .mergeCallFailed, [prompt])
  | some content => (.ok ⟨chunkIndex, newChunk, content⟩, [prompt])

/-- The `for i := 1; i < len(chunks); i++` loop of
`processIncremental`: merge each further chunk into the accumulated
result. -/
def incLoop (m : Merger) (complete : Nat → List Char → Option (List Char)) :
    List (List Char) → Nat → Nat → ChunkResult →
    Except MergeErr ChunkResult × List (List Char)
  | [], _, _, acc => (.ok acc, [])
  | ch :: rest, i, k, acc =>
    match mergeWithPrevious m complete k acc.jsonData ch (Int.ofNat i) with
    | (.error e, tr) => (.error (.wrapMergeChunk i e), tr)
    | (.ok merged, tr) =>
      let next := incLoop m complete rest (i + 1) (k + tr.length) merged
      (next.1, tr ++ next.2)

/-- Go `(*Merger).processIncremental`.  (Go would panic on an empty chunk
list; `ProcessChunks` only reaches it with at least two chunks, so the
`[]` case is an arbitrary error.) -/
def processIncremental (m : Merger)
    (complete : Nat → List Char → Option (List Char))
    (chunks : List (List Char)) :
    Except MergeErr ChunkResult × List (List Char) :=
  match chunks with
  | [] => (.error .noChunks, [])
  | c0 :: rest =>
    match processSingleChunk m complete 0 c0 0 with
    | (.error e, tr) => (.error (.wrapFirstChunk e), tr)
    | (.ok r0, tr) =>
      let next := incLoop m complete rest 1 tr.length r0
      (next.1, tr ++ next.2)

/-- Phase 1 of `processTwoPass`: extract every chunk independently. -/
def twoPassLoop (m : Merger)
    (complete : Nat → List Char → Option (List Char)) :
    List (List Char) → Nat → Nat →
    Except MergeErr (List ChunkResult) × List (List Char)
  | [], _, _ => (.ok [], [])
  | ch :: rest, i, k =>
    match processSingleChunk m complete k ch (Int.ofNat i) with
    | (.error e, tr) => (.error (.wrapChunk i e), tr)
    | (.ok r, tr) =>
      match twoPassLoop m complete rest (i + 1) (k + tr.length) with
      | (.error e, tr') => (.error e, tr ++ tr')
      | (.ok rs, tr') => (.ok (r :: rs), tr ++ tr')

/-- Go `(*Merger).mergeAllResults`. -/
def mergeAllResults (m : Merger)
    (complete : Nat → List Char → Option (List Char))
    (k : Nat) (results : List ChunkResult) :
    Except MergeErr ChunkResult × List (List Char) :=
  match results with
  | [r] => (.ok r, [])
  | rs =>
    let prompt := createConsolidationPrompt m (rs.map (·.jsonData))
    match complete k prompt with
    | none => (.error .consolidationCallFailed, [prompt])
    | some content => (.ok ⟨-1, str "consolidated", content⟩, [prompt])

/-- Go `(*Merger).processTwoPass`. -/
def processTwoPass (m : Merger)
    (complete : Nat → List Char → Option (List Char))
    (chunks : List (List Char)) :
    Except MergeErr ChunkResult × List (List Char) :=
  match twoPassLoop m complete chunks 0 0 with
  | (.error e, tr) => (.error e, tr)
  | (.ok rs, tr) =>
    let next := mergeAllResults m complete tr.length rs
    (next.1, tr ++ next.2)

/-- The per-chunk extraction loop of `processTemplateDriven` (textually
a separate loop in the source, behaviourally the same as phase 1 of
two-pass, including the error wrapping format). -/
def templateLoop (m : Merger)
    (complete : Nat → List Char → Option (List Char)) :
    List (List Char) → Nat → Nat →
    Except MergeErr (List ChunkResult) × List (List Char)
  | [], _, _ => (.ok [], [])
  | ch :: rest, i, k =>
    match processSingleChunk m complete k ch (Int.ofNat i) with
    | (.error e, tr) => (.error (.wrapChunk i e), tr)
    | (.ok r, tr) =>
      match templateLoop m complete rest (i + 1) (k + tr.length) with
      | (.error e, tr') => (.error e, tr ++ tr')
      | (.ok rs, tr') => (.ok (r :: rs), tr ++ tr')

/-- Go `(*Merger).mergeByTemplate`: delegates to `mergeAllResults`. -/
def mergeByTemplate (m : Merger)
    (complete : Nat → List Char → Option (List Char))
    (k : Nat) (results : List ChunkResult) :
    Except MergeErr ChunkResult × List (List Char) :=
  mergeAllResults m complete k results

/-- Go `(*Merger).processTemplateDriven`. -/
def processTemplateDriven (m : Merger)
    (complete : Nat → List Char → Option (List Char))
    (chunks : List (List Char)) :
    Except MergeErr ChunkResult × List (List Char) :=
  match templateLoop m complete chunks 0 0 with
  | (.error e, tr) => (.error e, tr)
  | (.ok rs, tr) =>
    let next := mergeByTemplate m complete tr.length rs
    (next.1, tr ++ next.2)

/-- Go `(*Merger).ProcessChunks`. -/
def processChunks (m : Merger)
    (complete : Nat → List Char → Option (List Char))
    (chunks : List (List Char)) :
    Except MergeErr ChunkResult × List (List Char) :=
  match chunks with
  | [] => (.error .noChunks, [])
  | [c] => processSingleChunk m complete 0 c 0
  | cs =>
    if m.options.strategy = strategyIncremental then
      processIncremental m complete cs
    else if m.options.strategy = strategyTwoPass then
      processTwoPass m complete cs
    else if m.options.strategy = strategyTemplateDriven then
      processTemplateDriven m complete cs
    else (.error (.unknownStrategy m.options.strategy), [])

/-- Replace the strategy field of a merger (used to compare the engine
under different strategy selections). -/
def setStrategy (m : Merger) (s : List Char) : Merger :=
  { m with options := { m.options with strategy := s } }

/-- Replace the instruction field of a merger. -/
def setInstructions (m : Merger) (s : List Char) : Merger :=
  { m with options := { m.options with instructions := s } }

/-! ## Concrete instances used by witnesses and counterexamples -/

/-- A concrete spec value. -/
def specW : Spec := ⟨str "Spec Title", str "spec-slug", str "SCHEMA"⟩

/-- A merger configured with the incremental strategy and no custom
instructions. -/
def mergerInc : Merger := ⟨specW, ⟨strategyIncremental, [], 2, false⟩⟩

/-- A merger configured with a strategy value outside the three named
strategies. -/
def mergerBogus : Merger := ⟨specW, ⟨str "bogus", [], 2, false⟩⟩

/-- A merger with the non-empty custom instruction string `"x"`. -/
def mergerCustom : Merger := ⟨specW, ⟨strategyIncremental, str "x", 2, false⟩⟩

/-- A provider that always succeeds with content `"r"`. -/
def completeW : Nat → List Char → Option (List Char) := fun _ _ => some (str "r")

/-! ## Lemmas: token estimate -/

/-- The estimate is monotone in the number of Unicode scalars. -/
theorem countTokens_mono {s t : List Char} (h : s.length ≤ t.length) :
    countTokens s ≤ countTokens t := by
  unfold countTokens
  by_cases hs : s = []
  · simp [hs]
  · have ht : t ≠ [] := by
      intro hteq
      subst hteq
      exact hs (List.eq_nil_of_length_eq_zero (Nat.le_zero.mp h))
    simp only [hs, ht, if_false]
    exact Nat.div_le_div_right (Nat.mul_le_mul_right _ (Nat.div_le_div_right h))

/-- The estimate is bounded by the undamped formula on the length. -/
theorem countTokens_le_formula (s : List Char) :
    countTokens s ≤ s.length / 4 * 11 / 10 := by
  unfold countTokens
  by_cases hs : s = [] <;> simp [hs]

/-- Any text within the `forceSplit` character limit fits the budget:
`(16*max/5)/4*11/10 ≤ max`. -/
theorem countTokens_le_of_length_le_charLimit {max : Nat} {s : List Char}
    (h : s.length ≤ max * 16 / 5) : countTokens s ≤ max := by
  refine le_trans (countTokens_le_formula s) ?_
  have h4 : s.length / 4 ≤ max * 16 / 5 / 4 := Nat.div_le_div_right h
  have hA : max * 16 / 5 / 4 = max * 16 / 20 := by
    rw [Nat.div_div_eq_div_mul]
  have hB : max * 16 / 20 * 20 ≤ max * 16 := Nat.div_mul_le_self _ _
  set a := s.length / 4 with ha
  set b := a * 11 / 10 with hb
  have hb10 : b * 10 ≤ a * 11 := Nat.div_mul_le_self _ _
  have haq : a ≤ max * 16 / 20 := by rw [← hA]; exact h4
  omega

/-! ## Lemmas: split / join reconstruction -/

/-- Holding `leadsWith p l` means `p` is literally the start of `l`. -/
theorem leadsWith_eq {p l : List Char} (h : leadsWith p l = true) :
    l = p ++ l.drop p.length := by
  induction p generalizing l with
  | nil => simp
  | cons a as ih =>
    cases l with
    | nil => simp [leadsWith] at h
    | cons b bs =>
      simp only [leadsWith, Bool.and_eq_true, decide_eq_true_eq] at h
      obtain ⟨rfl, h2⟩ := h
      simpa using ih h2

/-- A separator found at index `i` decomposes the text around it. -/
theorem firstSepIdx_spec {sep s : List Char} {i : Nat}
    (h : firstSepIdx sep s = some i) :
    s = s.take i ++ sep ++ s.drop (i + sep.length) := by
  induction s generalizing i with
  | nil =>
    unfold firstSepIdx at h
    by_cases hl : leadsWith sep [] = true
    · cases sep with
      | nil => simp
      | cons a as => simp [leadsWith] at hl
    · simp [hl] at h
  | cons c rest ih =>
    unfold firstSepIdx at h
    by_cases hl : leadsWith sep (c :: rest) = true
    · rw [if_pos hl] at h
      injection h with h0
      subst h0
      simpa using leadsWith_eq hl
    · rw [if_neg hl] at h
      cases hj : firstSepIdx sep rest with
      | none => rw [hj] at h; simp at h
      | some j =>
        rw [hj, Option.map_some'] at h
        injection h with h2
        subst h2
        have := ih hj
        calc c :: rest = c :: (rest.take j ++ sep ++ rest.drop (j + sep.length)) := by
              rw [← this]
          _ = (c :: rest).take (j + 1) ++ sep ++ (c :: rest).drop (j + 1 + sep.length) := by
              simp only [List.take_succ_cons, List.cons_append]
              have : j + 1 + sep.length = (j + sep.length) + 1 := by omega
              rw [this, List.drop_succ_cons]

/-- The worker `splitAux` never returns an empty part list. -/
theorem splitAux_ne_nil (sep : List Char) (fuel : Nat) (s : List Char) :
    splitAux sep fuel s ≠ [] := by
  cases fuel with
  | zero => simp [splitAux]
  | succ n =>
    unfold splitAux
    cases firstSepIdx sep s <;> simp

/-- Joining what `splitAux` produced restores the text, for any fuel. -/
theorem joinSep_splitAux (sep : List Char) (fuel : Nat) (s : List Char) :
    joinSep sep (splitAux sep fuel s) = s := by
  induction fuel generalizing s with
  | zero => simp [splitAux, joinSep]
  | succ n ih =>
    unfold splitAux
    cases hidx : firstSepIdx sep s with
    | none => simp [joinSep]
    | some i =>
      have hne := splitAux_ne_nil sep n (s.drop (i + sep.length))
      cases hrest : splitAux sep n (s.drop (i + sep.length)) with
      | nil => exact absurd hrest hne
      | cons y ys =>
        show joinSep sep (s.take i :: splitAux sep n (s.drop (i + sep.length))) = s
        rw [hrest]
        have hjoin : joinSep sep (y :: ys) = s.drop (i + sep.length) := by
          rw [← hrest, ih]
        simp only [joinSep]
        rw [hjoin]
        exact (firstSepIdx_spec hidx).symm

/-- Go `strings.Join ∘ strings.Split` is the identity. -/
theorem joinSep_splitOn (sep s : List Char) :
    joinSep sep (splitOn sep s) = s :=
  joinSep_splitAux sep (s.length + 1) s

/-! ## Lemmas: trimming and the backward walk -/

/-- The backward walk never moves forward. -/
theorem walkBack_le (text : List Char) (k : Nat) : walkBack text k ≤ k := by
  induction k with
  | zero => simp [walkBack]
  | succ n ih =>
    unfold walkBack
    split
    · exact le_refl _
    · omega

/-- Elements of `takeWhile` satisfy the predicate. -/
theorem mem_takeWhile_sat {p : Char → Bool} {l : List Char} {a : Char}
    (h : a ∈ l.takeWhile p) : p a = true := by
  induction l with
  | nil => simp at h
  | cons b bs ih =>
    by_cases hb : p b = true
    · rw [List.takeWhile_cons_of_pos hb] at h
      rcases List.mem_cons.mp h with rfl | h2
      · exact hb
      · exact ih h2
    · rw [List.takeWhile_cons_of_neg hb] at h
      simp at h

/-- The `TrimSpace` decomposition: the input is whitespace, then the trimmed
text, then whitespace. -/
theorem trimSpace_decomp (s : List Char) :
    ∃ w1 w2, (∀ c ∈ w1, goIsSpace c = true) ∧ (∀ c ∈ w2, goIsSpace c = true) ∧
      s = w1 ++ trimSpace s ++ w2 := by
  refine ⟨s.takeWhile goIsSpace,
    ((s.dropWhile goIsSpace).reverse.takeWhile goIsSpace).reverse, ?_, ?_, ?_⟩
  · intro c hc; exact mem_takeWhile_sat hc
  · intro c hc
    rw [List.mem_reverse] at hc
    exact mem_takeWhile_sat hc
  · unfold trimSpace
    conv_lhs => rw [← List.takeWhile_append_dropWhile goIsSpace s]
    rw [List.append_assoc]
    congr 1
    have hrev : (s.dropWhile goIsSpace).reverse =
        (s.dropWhile goIsSpace).reverse.takeWhile goIsSpace ++
          (s.dropWhile goIsSpace).reverse.dropWhile goIsSpace :=
      (List.takeWhile_append_dropWhile goIsSpace _).symm
    calc s.dropWhile goIsSpace
        = (s.dropWhile goIsSpace).reverse.reverse := by rw [List.reverse_reverse]
      _ = ((s.dropWhile goIsSpace).reverse.takeWhile goIsSpace ++
            (s.dropWhile goIsSpace).reverse.dropWhile goIsSpace).reverse := by
          rw [← hrev]
      _ = ((s.dropWhile goIsSpace).reverse.dropWhile goIsSpace).reverse ++
            ((s.dropWhile goIsSpace).reverse.takeWhile goIsSpace).reverse := by
          rw [List.reverse_append]

/-- A text trimmed to nothing is pure whitespace. -/
theorem all_space_of_trimSpace_eq_nil {s : List Char} (h : trimSpace s = []) :
    ∀ c ∈ s, goIsSpace c = true := by
  obtain ⟨w1, w2, hw1, hw2, hs⟩ := trimSpace_decomp s
  rw [h, List.append_nil] at hs
  intro c hc
  rw [hs] at hc
  rcases List.mem_append.mp hc with h1 | h2
  · exact hw1 c h1
  · exact hw2 c h2

/-! ## Lemmas: tryBoundary -/

/-- Invariant proof for the builder loop of `tryBoundary` (instantiated
at `used = i`, which the loop maintains): the returned chunk fits the
budget, and a non-empty returned chunk decomposes the original text as
`chunk ++ separator ++ remaining` where the separator is the boundary or
empty. -/
theorem tbLoop_spec (max : Nat) (b : List Char) (all : List (List Char))
    (orig : List Char) :
    ∀ (restParts : List (List Char)) (i : Nat) (current : List Char),
      countTokens current ≤ max →
      ((i = 0 ∧ current = [] ∧ restParts = all ∧ joinSep b all = orig) ∨
        (0 < i ∧ all.drop i = restParts ∧
          orig = current ++
            (if restParts = [] then [] else b ++ joinSep b restParts))) →
      countTokens (tbLoop max b all orig restParts i current i).1 ≤ max ∧
        ((tbLoop max b all orig restParts i current i).1 ≠ [] →
          ∃ s, (s = b ∨ s = []) ∧
            orig = (tbLoop max b all orig restParts i current i).1 ++ s ++
              (tbLoop max b all orig restParts i current i).2) := by
  intro restParts
  induction restParts with
  | nil =>
    intro i current hcur hinv
    simp only [tbLoop]
    refine ⟨hcur, ?_⟩
    intro hne
    rcases hinv with ⟨_, hcur0, _, _⟩ | ⟨_, _, horig⟩
    · exact absurd hcur0 hne
    · refine ⟨[], Or.inr rfl, ?_⟩
      simp only [if_pos rfl, List.append_nil] at horig
      simp [horig]
  | cons part rps ih =>
    intro i current hcur hinv
    simp only [tbLoop]
    by_cases hbig : max < countTokens (current ++ (if 0 < i then b else []) ++ part)
    · rw [if_pos hbig]
      by_cases hi : i = 0
      · rw [if_pos hi]
        refine ⟨by simp [countTokens], ?_⟩
        intro hne
        exact absurd rfl hne
      · rw [if_neg hi]
        rcases hinv with ⟨hi0, _, _, _⟩ | ⟨_, hdrop, horig⟩
        · exact absurd hi0 hi
        · refine ⟨hcur, ?_⟩
          intro _
          refine ⟨b, Or.inl rfl, ?_⟩
          rw [hdrop]
          rw [if_neg (by simp : ¬(part :: rps = ([] : List (List Char))))] at horig
          rw [List.append_assoc]
          exact horig
    · rw [if_neg hbig]
      have hdrop' : all.drop (i + 1) = rps := by
        rcases hinv with ⟨hi0, _, hrp, _⟩ | ⟨_, hdrop, _⟩
        · subst hi0
          rw [List.drop_one, ← hrp]
          rfl
        · have h1 : all.drop (i + 1) = (all.drop i).drop 1 := by
            rw [List.drop_drop]
          rw [h1, hdrop, List.drop_one]
          rfl
      have horig' : orig = (current ++ (if 0 < i then b else []) ++ part) ++
          (if rps = [] then [] else b ++ joinSep b rps) := by
        rcases hinv with ⟨hi0, hc0, hrp, hjoin⟩ | ⟨hpos, _, horig⟩
        · subst hi0
          subst hc0
          rw [← hrp] at hjoin
          cases rps with
          | nil => simp [joinSep] at hjoin; simp [hjoin]
          | cons y ys =>
            simp only [joinSep] at hjoin
            simp only [if_neg (by simp : ¬(y :: ys = ([] : List (List Char))))]
            simp only [if_neg (by omega : ¬(0 < 0))]
            simp only [List.nil_append]
            rw [← hjoin]
            simp [List.append_assoc]
        · rw [if_neg (by simp : ¬(part :: rps = ([] : List (List Char))))] at horig
          rw [if_pos hpos]
          cases rps with
          | nil =>
            simp only [joinSep] at horig
            simp [horig, List.append_assoc]
          | cons y ys =>
            simp only [joinSep] at horig
            simp only [if_neg (by simp : ¬(y :: ys = ([] : List (List Char))))]
            rw [horig]
            simp [List.append_assoc]
      exact ih (i + 1) (current ++ (if 0 < i then b else []) ++ part)
        (not_lt.mp hbig) (Or.inr ⟨Nat.succ_pos i, hdrop', horig'⟩)

/-- Function `tryBoundary` returns a chunk within budget, and a non-empty chunk
splits the text as `chunk ++ sep ++ remaining` with `sep` the boundary
or empty. -/
theorem tryBoundary_spec (max : Nat) (text b : List Char) :
    countTokens (tryBoundary max text b).1 ≤ max ∧
      ((tryBoundary max text b).1 ≠ [] →
        ∃ s, (s = b ∨ s = []) ∧
          text = (tryBoundary max text b).1 ++ s ++ (tryBoundary max text b).2) := by
  unfold tryBoundary
  by_cases hlen : (splitOn b text).length ≤ 1
  · rw [if_pos hlen]
    exact ⟨by simp [countTokens], fun hne => absurd rfl hne⟩
  · rw [if_neg hlen]
    exact tbLoop_spec max b (splitOn b text) text (splitOn b text) 0 []
      (by simp [countTokens])
      (Or.inl ⟨rfl, rfl, rfl, joinSep_splitOn b text⟩)

/-! ## Lemmas: findOptimalChunk and forceSplit -/

/-- Every character of every boundary string is whitespace or boundary
punctuation. -/
theorem boundaries_chars_sepOK :
    ∀ b ∈ boundaries, ∀ c ∈ b, sepCharOK c = true := by decide

/-- Whitespace characters qualify as separator characters. -/
theorem sepCharOK_of_space {c : Char} (h : goIsSpace c = true) :
    sepCharOK c = true := by
  unfold sepCharOK
  rw [h]
  rfl

/-- Specification of `findOptimalChunk`: the chunk fits the budget and,
when non-empty, decomposes the text around a dropped separator whose
characters all qualify. -/
theorem findOptimalChunk_spec (max : Nat) (text : List Char) :
    countTokens (findOptimalChunk max text).1 ≤ max ∧
      ((findOptimalChunk max text).1 ≠ [] →
        ∃ s, (∀ c ∈ s, sepCharOK c = true) ∧
          text = (findOptimalChunk max text).1 ++ s ++
            (findOptimalChunk max text).2) := by
  unfold findOptimalChunk
  by_cases hfit : countTokens text ≤ max
  · rw [if_pos hfit]
    exact ⟨hfit, fun _ => ⟨[], by simp⟩⟩
  · rw [if_neg hfit]
    have main :
        ∀ (bs : List (List Char)), (∀ x ∈ bs, x ∈ boundaries) →
        ∀ init : List Char × List Char,
        (countTokens init.1 ≤ max ∧
          (init.1 ≠ [] →
            ∃ s, (∀ c ∈ s, sepCharOK c = true) ∧
              text = init.1 ++ s ++ init.2)) →
        countTokens (bs.foldl
            (fun best b =>
              let cr := tryBoundary max text b
              if cr.1 ≠ [] ∧ best.1.length < cr.1.length then cr else best)
            init).1 ≤ max ∧
          ((bs.foldl
              (fun best b =>
                let cr := tryBoundary max text b
                if cr.1 ≠ [] ∧ best.1.length < cr.1.length then cr else best)
              init).1 ≠ [] →
            ∃ s, (∀ c ∈ s, sepCharOK c = true) ∧
              text = (bs.foldl
                  (fun best b =>
                    let cr := tryBoundary max text b
                    if cr.1 ≠ [] ∧ best.1.length < cr.1.length then cr else best)
                  init).1 ++ s ++
                (bs.foldl
                    (fun best b =>
                      let cr := tryBoundary max text b
                      if cr.1 ≠ [] ∧ best.1.length < cr.1.length then cr else best)
                    init).2) := by
      intro bs
      induction bs with
      | nil => intro _ init hinit; simpa using hinit
      | cons b rest ih =>
        intro hsub init hinit
        simp only [List.foldl_cons]
        refine ih (fun x hx => hsub x (List.mem_cons_of_mem b hx)) _ ?_
        by_cases htake :
            (tryBoundary max text b).1 ≠ [] ∧
              init.1.length < (tryBoundary max text b).1.length
        · rw [if_pos htake]
          obtain ⟨htb1, htb2⟩ := tryBoundary_spec max text b
          refine ⟨htb1, fun hne => ?_⟩
          obtain ⟨s, hs, hdec⟩ := htb2 hne
          refine ⟨s, ?_, hdec⟩
          rcases hs with rfl | rfl
          · exact boundaries_chars_sepOK _ (hsub _ (List.mem_cons_self _ rest))
          · simp
        · rw [if_neg htake]
          exact hinit
    exact main boundaries (fun _ hx => hx) ([], text)
      ⟨by simp [countTokens], fun hne => absurd rfl hne⟩

/-- Specification of `forceSplit` on non-empty text with a positive
budget: the produced chunk is non-empty and within budget, and the text
decomposes as `chunk ++ ws ++ remaining ++ ws`. -/
theorem forceSplit_spec (max : Nat) (text : List Char) (h0 : 0 < max)
    (ht : text ≠ []) :
    (forceSplit max text).1 ≠ [] ∧
      countTokens (forceSplit max text).1 ≤ max ∧
      ∃ w1 w2, (∀ c ∈ w1, goIsSpace c = true) ∧
        (∀ c ∈ w2, goIsSpace c = true) ∧
        text = (forceSplit max text).1 ++ w1 ++ (forceSplit max text).2 ++ w2 := by
  by_cases hlen : text.length ≤ max * 16 / 5
  · simp only [forceSplit, if_pos hlen]
    exact ⟨ht, countTokens_le_of_length_le_charLimit hlen,
      [], [], by simp, by simp, by simp⟩
  · simp only [forceSplit, if_neg hlen]
    have hCL : 3 ≤ max * 16 / 5 := by
      have : 1 * 16 / 5 ≤ max * 16 / 5 :=
        Nat.div_le_div_right (Nat.mul_le_mul_right _ h0)
      omega
    set w := walkBack text (max * 16 / 5) with hw
    set cut := if w = 0 then max * 16 / 5 else w with hcut
    have hcut_le : cut ≤ max * 16 / 5 := by
      rw [hcut]
      by_cases hw0 : w = 0
      · simp [hw0]
      · rw [if_neg hw0, hw]
        exact walkBack_le _ _
    have hcut_pos : 0 < cut := by
      rw [hcut]
      by_cases hw0 : w = 0
      · simp [hw0]; omega
      · rw [if_neg hw0]; omega
    refine ⟨?_, ?_, ?_⟩
    · have : (text.take cut).length = min cut text.length := by simp
      intro hnil
      rw [hnil] at this
      simp at this
      omega
    · refine countTokens_le_of_length_le_charLimit ?_
      calc (text.take cut).length ≤ cut := by simp
        _ ≤ max * 16 / 5 := hcut_le
    · obtain ⟨w1, w2, hw1, hw2, hdec⟩ := trimSpace_decomp (text.drop cut)
      refine ⟨w1, w2, hw1, hw2, ?_⟩
      conv_lhs => rw [← List.take_append_drop cut text, hdec]
      simp [List.append_assoc]

/-- One iteration of the `ChunkText` loop (the `findOptimalChunk` result
with the `forceSplit` fallback): the chunk fits the budget, the
remainder strictly shrinks, and the input decomposes as
`chunk ++ mid ++ remainder ++ tail` with `mid` made of separator
characters and `tail` of whitespace. -/
theorem chunkStep_spec (max : Nat) (text : List Char) (h0 : 0 < max)
    (ht : text ≠ []) :
    countTokens (if (findOptimalChunk max text).1 = [] then forceSplit max text
        else findOptimalChunk max text).1 ≤ max ∧
      (if (findOptimalChunk max text).1 = [] then forceSplit max text
        else findOptimalChunk max text).2.length < text.length ∧
      ∃ mid tail, (∀ c ∈ mid, sepCharOK c = true) ∧
        (∀ c ∈ tail, goIsSpace c = true) ∧
        text = (if (findOptimalChunk max text).1 = [] then forceSplit max text
            else findOptimalChunk max text).1 ++ mid ++
          (if (findOptimalChunk max text).1 = [] then forceSplit max text
            else findOptimalChunk max text).2 ++ tail := by
  by_cases hp : (findOptimalChunk max text).1 = []
  · rw [if_pos hp]
    obtain ⟨hne, hcnt, w1, w2, hw1, hw2, hdec⟩ := forceSplit_spec max text h0 ht
    refine ⟨hcnt, ?_, w1, w2, fun c hc => sepCharOK_of_space (hw1 c hc), hw2, hdec⟩
    have hlen := congrArg List.length hdec
    simp only [List.length_append] at hlen
    have : 0 < (forceSplit max text).1.length := List.length_pos.mpr hne
    omega
  · rw [if_neg hp]
    obtain ⟨hcnt, hdec'⟩ := findOptimalChunk_spec max text
    obtain ⟨s, hs, hdec⟩ := hdec' hp
    refine ⟨hcnt, ?_, s, [], hs, by simp, by rw [List.append_nil]; exact hdec⟩
    have hlen := congrArg List.length hdec
    simp only [List.length_append] at hlen
    have : 0 < (findOptimalChunk max text).1.length := List.length_pos.mpr hp
    omega

/-! ## Lemmas: the ChunkText loop -/

/-- Every chunk the loop emits fits the budget, given enough fuel. -/
theorem chunkLoop_fits (max : Nat) (h0 : 0 < max) :
    ∀ (fuel : Nat) (remaining : List Char), remaining.length < fuel →
      ∀ c ∈ chunkLoop max fuel remaining, countTokens c ≤ max := by
  intro fuel
  induction fuel with
  | zero => intro r h; omega
  | succ n ih =>
    intro r hlen c hc
    simp only [chunkLoop] at hc
    by_cases hg : r ≠ [] ∧ max < countTokens r
    · rw [if_pos hg] at hc
      obtain ⟨hcnt, hshrink, _⟩ := chunkStep_spec max r h0 hg.1
      rcases List.mem_cons.mp hc with rfl | htail
      · exact hcnt
      · exact ih _ (by omega) c htail
    · rw [if_neg hg] at hc
      by_cases htr : trimSpace r ≠ []
      · rw [if_pos htr] at hc
        rcases List.mem_cons.mp hc with rfl | h2
        · rcases Decidable.not_and_iff_or_not.mp hg with h3 | h3
          · rw [not_not.mp h3]
            simp [countTokens]
          · exact not_lt.mp h3
        · simp at h2
      · rw [if_neg htr] at hc
        simp at hc

/-! ## Lemmas: weaving separators back between chunks -/

/-- Prepending onto the first separator factors out of `weave`. -/
theorem weave_first_append (w s : List Char) (ss cs : List (List Char)) :
    weave ((w ++ s) :: ss) cs = w ++ weave (s :: ss) cs := by
  cases cs with
  | nil => rfl
  | cons c cs' => simp [weave, List.append_assoc]

/-- Appending onto the last separator factors out of `weave` when there
is one more separator than chunks. -/
theorem weave_appendLast (w : List Char) :
    ∀ (cs ss : List (List Char)), ss.length = cs.length + 1 →
      weave (appendLast w ss) cs = weave ss cs ++ w := by
  intro cs
  induction cs with
  | nil =>
    intro ss h
    match ss, h with
    | [s], _ => rfl
  | cons c cs' ih =>
    intro ss h
    match ss, h with
    | s :: s' :: ss'', h =>
      have h' : (s' :: ss'').length = cs'.length + 1 := by
        simpa using h
      show weave (s :: appendLast w (s' :: ss'')) (c :: cs') = _
      simp only [weave]
      rw [ih (s' :: ss'') h']
      simp [List.append_assoc]

/-- Function `appendLast` preserves the length of a non-empty separator list. -/
theorem appendLast_length (w : List Char) :
    ∀ (ss : List (List Char)), ss ≠ [] →
      (appendLast w ss).length = ss.length := by
  intro ss
  induction ss with
  | nil => intro h; exact absurd rfl h
  | cons s ss' ih =>
    intro _
    cases ss' with
    | nil => rfl
    | cons t ts =>
      show (s :: appendLast w (t :: ts)).length = _
      simp only [List.length_cons]
      rw [ih (by simp)]
      simp

/-- Function `appendLast` preserves a character predicate holding on all
separators and on the appended tail. -/
theorem appendLast_all {P : Char → Prop} (w : List Char)
    (hw : ∀ c ∈ w, P c) :
    ∀ (ss : List (List Char)), (∀ s ∈ ss, ∀ c ∈ s, P c) →
      ∀ s ∈ appendLast w ss, ∀ c ∈ s, P c := by
  intro ss
  induction ss with
  | nil =>
    intro _ s hs
    simp only [appendLast] at hs
    rcases List.mem_singleton.mp hs with rfl
    exact hw
  | cons x ss' ih =>
    intro hss s hs
    cases ss' with
    | nil =>
      simp only [appendLast] at hs
      rcases List.mem_singleton.mp hs with rfl
      intro c hc
      rcases List.mem_append.mp hc with h1 | h1
      · exact hss x (by simp) c h1
      · exact hw c h1
    | cons t ts =>
      rcases List.mem_cons.mp hs with rfl | h2
      · exact hss s (by simp)
      · exact ih (fun u hu => hss u (List.mem_cons_of_mem x hu)) s h2

/-- Given enough fuel, the loop's chunks weave back to the remaining
text with separators made only of whitespace and boundary
punctuation. -/
theorem chunkLoop_weave (max : Nat) (h0 : 0 < max) :
    ∀ (fuel : Nat) (remaining : List Char), remaining.length < fuel →
      ∃ seps, seps.length = (chunkLoop max fuel remaining).length + 1 ∧
        (∀ s ∈ seps, ∀ c ∈ s, sepCharOK c = true) ∧
        weave seps (chunkLoop max fuel remaining) = remaining := by
  intro fuel
  induction fuel with
  | zero => intro r h; omega
  | succ n ih =>
    intro r hlen
    simp only [chunkLoop]
    by_cases hg : r ≠ [] ∧ max < countTokens r
    · rw [if_pos hg]
      obtain ⟨hcnt, hshrink, mid, tail, hmid, htail, hdec⟩ :=
        chunkStep_spec max r h0 hg.1
      obtain ⟨seps, hslen, hsOK, hwv⟩ := ih
        (if (findOptimalChunk max r).1 = [] then forceSplit max r
          else findOptimalChunk max r).2 (by omega)
      cases seps with
      | nil => simp at hslen
      | cons s0 ss =>
        refine ⟨[] :: appendLast tail ((mid ++ s0) :: ss), ?_, ?_, ?_⟩
        · simp only [List.length_cons]
          rw [appendLast_length tail _ (by simp)]
          simp only [List.length_cons] at hslen ⊢
          omega
        · intro s hs
          rcases List.mem_cons.mp hs with rfl | h2
          · simp
          · refine appendLast_all tail
              (fun c hc => sepCharOK_of_space (htail c hc)) _ ?_ s h2
            intro u hu
            rcases List.mem_cons.mp hu with rfl | h3
            · intro c hc
              rcases List.mem_append.mp hc with h4 | h4
              · exact hmid c h4
              · exact hsOK s0 (by simp) c h4
            · exact hsOK u (List.mem_cons_of_mem s0 h3)
        · simp only [weave, List.nil_append]
          rw [weave_appendLast tail _ ((mid ++ s0) :: ss)
            (by simp only [List.length_cons] at hslen ⊢; omega)]
          rw [weave_first_append]
          rw [hwv]
          simp only [List.append_assoc] at hdec ⊢
          exact hdec.symm
    · rw [if_neg hg]
      by_cases htr : trimSpace r ≠ []
      · rw [if_pos htr]
        refine ⟨[[], []], by simp, ?_, by simp [weave]⟩
        intro s hs
        rcases List.mem_cons.mp hs with rfl | h2
        · simp
        · rcases List.mem_singleton.mp h2 with rfl
          simp
      · rw [if_neg htr]
        refine ⟨[r], by simp, ?_, by simp [weave]⟩
        intro s hs
        rcases List.mem_singleton.mp hs with rfl
        intro c hc
        exact sepCharOK_of_space (all_space_of_trimSpace_eq_nil (not_not.mp htr) c hc)

/-- Filtering distributes over `weave`. -/
theorem weave_filter (p : Char → Bool) :
    ∀ (ss cs : List (List Char)),
      (weave ss cs).filter p =
        weave (ss.map (List.filter p)) (cs.map (List.filter p)) := by
  intro ss
  induction ss with
  | nil => intro cs; simp [weave]
  | cons s ss' ih =>
    intro cs
    cases cs with
    | nil => simp [weave]
    | cons c cs' => simp [weave, List.filter_append, ih cs']

/-- Weaving with empty separators is concatenation. -/
theorem weave_nil_seps :
    ∀ (cs ss : List (List Char)), (∀ s ∈ ss, s = []) →
      ss.length = cs.length + 1 → weave ss cs = cs.flatten := by
  intro cs
  induction cs with
  | nil =>
    intro ss hnil h
    match ss, h with
    | [s], _ => simp [weave, hnil s (by simp)]
  | cons c cs' ih =>
    intro ss hnil h
    match ss, h with
    | s :: ss', h =>
      show weave (s :: ss') (c :: cs') = _
      cases ss' with
      | nil => simp at h
      | cons t ts =>
        simp only [weave]
        rw [hnil s (by simp), ih (t :: ts)
          (fun u hu => hnil u (List.mem_cons_of_mem s hu)) (by simpa using h)]
        simp

/-- If chunks weave back to the text through whitespace-only
separators, then the chunks and the text agree after deleting all
whitespace. -/
theorem weave_ws_filter {seps chunks : List (List Char)} {t : List Char}
    (hlen : seps.length = chunks.length + 1)
    (hws : ∀ s ∈ seps, ∀ c ∈ s, goIsSpace c = true)
    (heq : weave seps chunks = t) :
    (chunks.map (List.filter (fun c => !goIsSpace c))).flatten =
      t.filter (fun c => !goIsSpace c) := by
  have h1 := congrArg (List.filter (fun c => !goIsSpace c)) heq
  rw [weave_filter] at h1
  have h2 : ∀ s ∈ seps.map (List.filter (fun c => !goIsSpace c)), s = [] := by
    intro s hs
    rcases List.mem_map.mp hs with ⟨u, hu, rfl⟩
    apply List.filter_eq_nil_iff.mpr
    intro a ha
    simp [hws u hu a ha]
  rw [weave_nil_seps (chunks.map (List.filter (fun c => !goIsSpace c))) _ h2
    (by simp [hlen])] at h1
  exact h1

/-! ## Claim theorems: SemanticChunker and TokenEstimator -/

/-- C1 (counterexample): at budget 3, the input
`"aaaaaaaaaaaaaaa. bb"` has estimate 4 > 3 and is split at the `". "`
sentence boundary into `["aaaaaaaaaaaaaaa", "bb"]`; the dropped `". "`
contains a period, so no interleaving of whitespace-only separators can
rebuild the input from the chunks: stripping boundary whitespace alone
does not reconstruct the text. -/
theorem chunkText_ws_reconstruct_cx :
    3 < countTokens (str "aaaaaaaaaaaaaaa. bb") ∧
    ¬ ∃ seps,
        seps.length = (chunkText 3 (str "aaaaaaaaaaaaaaa. bb")).length + 1 ∧
        (∀ s ∈ seps, ∀ c ∈ s, goIsSpace c = true) ∧
        weave seps (chunkText 3 (str "aaaaaaaaaaaaaaa. bb")) =
          str "aaaaaaaaaaaaaaa. bb" := by
  refine ⟨by decide, ?_⟩
  rintro ⟨seps, hlen, hws, heq⟩
  have h := weave_ws_filter hlen hws heq
  revert h
  decide

/-- C1 (amended): for every text whose estimate exceeds a positive
budget, concatenating the chunks reconstructs the original text up to
the separators dropped at each split, which consist only of whitespace
and the boundary punctuation characters `.`, `?`, `!`, `,` (the claim's
"only boundary whitespace" must be widened to include the punctuation
of the sentence/clause delimiters the splitter discards). -/
theorem chunkText_reconstruct_up_to_separators (max : Nat) (text : List Char)
    (h0 : 0 < max) (hover : max < countTokens text) :
    ∃ seps, seps.length = (chunkText max text).length + 1 ∧
      (∀ s ∈ seps, ∀ c ∈ s, sepCharOK c = true) ∧
      weave seps (chunkText max text) = text := by
  unfold chunkText
  rw [if_neg (not_le.mpr hover)]
  exact chunkLoop_weave max h0 _ text (by omega)

/-- C1 (witness for the amended theorem) at budget 3 and a 19-character
input. -/
theorem chunkText_reconstruct_up_to_separators_witness :
    ∃ seps,
      seps.length = (chunkText 3 (str "aaaa bbbb cccc dddd")).length + 1 ∧
      (∀ s ∈ seps, ∀ c ∈ s, sepCharOK c = true) ∧
      weave seps (chunkText 3 (str "aaaa bbbb cccc dddd")) =
        str "aaaa bbbb cccc dddd" :=
  chunkText_reconstruct_up_to_separators 3 (str "aaaa bbbb cccc dddd")
    (by decide) (by decide)

/-- C2: for a positive budget, every chunk `ChunkText` returns fits the
budget or is bounded by the forced-split character margin `16*max/5`
(in fact the margin's 0.8 damping makes every chunk fit the budget
outright), and at most one chunk could exceed the budget. -/
theorem chunkText_chunks_fit_budget (max : Nat) (text : List Char)
    (h0 : 0 < max) :
    (∀ c ∈ chunkText max text,
        countTokens c ≤ max ∨ c.length ≤ max * 16 / 5) ∧
      ((chunkText max text).filter
          (fun c => decide (max < countTokens c))).length ≤ 1 := by
  have hall : ∀ c ∈ chunkText max text, countTokens c ≤ max := by
    unfold chunkText
    by_cases hfit : countTokens text ≤ max
    · rw [if_pos hfit]
      intro c hc
      rcases List.mem_singleton.mp hc with rfl
      exact hfit
    · rw [if_neg hfit]
      exact chunkLoop_fits max h0 _ text (by omega)
  refine ⟨fun c hc => Or.inl (hall c hc), ?_⟩
  have hnil : (chunkText max text).filter
      (fun c => decide (max < countTokens c)) = [] := by
    apply List.filter_eq_nil_iff.mpr
    intro c hc
    simpa using not_lt.mpr (hall c hc)
  rw [hnil]
  simp

/-- C2 (witness) at budget 3 over a four-word input. -/
theorem chunkText_chunks_fit_budget_witness :
    (∀ c ∈ chunkText 3 (str "aaaa bbbb cccc dddd"),
        countTokens c ≤ 3 ∨ c.length ≤ 3 * 16 / 5) ∧
      ((chunkText 3 (str "aaaa bbbb cccc dddd")).filter
          (fun c => decide (3 < countTokens c))).length ≤ 1 :=
  chunkText_chunks_fit_budget 3 (str "aaaa bbbb cccc dddd") (by decide)

/-- C4 (counterexample): on the two-character input `"ab"` the estimate
is 0, the ceiling of 0/5 is 0, yet `GetEstimatedChunkCount` returns 1 —
the function is not exactly the ceiling of estimate/budget. -/
theorem getEstimatedChunkCount_cx :
    countTokens (str "ab") = 0 ∧
      getEstimatedChunkCount 5 (str "ab") = 1 ∧
      (countTokens (str "ab") + 5 - 1) / 5 = 0 := by
  decide

/-- C4 (amended): for a positive budget,
`GetEstimatedChunkCount = max 1 ⌈estimate/budget⌉`; it equals the
ceiling of estimate/budget except when the estimate is 0, where it
returns 1. -/
theorem getEstimatedChunkCount_eq_max_one_ceil (max : Nat)
    (text : List Char) (h0 : 0 < max) :
    getEstimatedChunkCount max text =
      Nat.max 1 ((countTokens text + max - 1) / max) := by
  unfold getEstimatedChunkCount
  by_cases hfit : countTokens text ≤ max
  · rw [if_pos hfit]
    have hle : (countTokens text + max - 1) / max ≤ 1 := by
      have h2 : countTokens text + max - 1 < 2 * max := by omega
      have := (Nat.div_lt_iff_lt_mul h0).mpr h2
      omega
    exact (Nat.max_eq_left hle).symm
  · rw [if_neg hfit]
    have h2 : 1 ≤ (countTokens text + max - 1) / max := by
      apply (Nat.le_div_iff_mul_le h0).mpr
      omega
    exact (Nat.max_eq_right h2).symm

/-- C4 (witness for the amended theorem): budget 10, a 60-character
estimate-16 input, prediction `⌈16/10⌉ = 2`. -/
theorem getEstimatedChunkCount_eq_max_one_ceil_witness :
    getEstimatedChunkCount 10
        (str "aaaaaaaaaaaaaaaaaaaaaaaaaaaaaaaaaaaaaaaaaaaaaaaaaaaaaaaaaaaa") =
      Nat.max 1 ((countTokens
          (str "aaaaaaaaaaaaaaaaaaaaaaaaaaaaaaaaaaaaaaaaaaaaaaaaaaaaaaaaaaaa") +
        10 - 1) / 10) :=
  getEstimatedChunkCount_eq_max_one_ceil 10
    (str "aaaaaaaaaaaaaaaaaaaaaaaaaaaaaaaaaaaaaaaaaaaaaaaaaaaaaaaaaaaa")
    (by decide)

/-- C5: the token estimate is monotone in the number of Unicode scalars
and non-negative; determinism (same input, same output) is inherent in
the embedding, `countTokens` being a pure function of the text. -/
theorem countTokens_monotone_nonneg (s t : List Char)
    (h : s.length ≤ t.length) :
    countTokens s ≤ countTokens t ∧ 0 ≤ countTokens s :=
  ⟨countTokens_mono h, Nat.zero_le _⟩

/-- C5 (witness) at `"ab"` and `"abcdef"`. -/
theorem countTokens_monotone_nonneg_witness :
    countTokens (str "ab") ≤ countTokens (str "abcdef") ∧
      0 ≤ countTokens (str "ab") :=
  countTokens_monotone_nonneg (str "ab") (str "abcdef") (by decide)

/-! ## Lemmas and claim theorem: RetryingExtractor -/

/-- The repair loop under a provider that always answers but never
validly: it consumes all remaining attempts, issues one call per
attempt, and ends Exhausted with the last payload and its findings. -/
theorem retryLoop_exhausts (validate : List Char → ValidationResult)
    (complete : Nat → List Char → Option (List Char))
    (input : List Char) (maxRetries : Nat)
    (hcall : ∀ n p, ∃ c, complete n p = some c ∧ (validate c).valid = false) :
    ∀ (rem attempt : Nat) (data : List Char) (result : ValidationResult)
      (calls : Nat), result = validate data → result.valid = false →
      ∃ d, retryLoop validate complete input maxRetries rem attempt data
          result calls =
        (some d, some (validate d), some (.exhausted maxRetries), calls + rem) ∧
        (validate d).valid = false := by
  intro rem
  induction rem with
  | zero =>
    intro attempt data result calls hres hval
    refine ⟨data, ?_, by rw [← hres]; exact hval⟩
    simp only [retryLoop, hres]
    rfl
  | succ n ih =>
    intro attempt data result calls hres hval
    obtain ⟨c, hc, hcval⟩ :=
      hcall calls (createRepairPrompt input data result)
    obtain ⟨d, hd, hdval⟩ := ih (attempt + 1) c (validate c) (calls + 1) rfl hcval
    refine ⟨d, ?_, hdval⟩
    simp only [retryLoop, hc]
    rw [if_neg (by simp [hcval])]
    rw [hd]
    have : calls + 1 + n = calls + (n + 1) := by omega
    rw [this]

/-- C3: for every prompt and retry bound `k`, if the provider succeeds
on every call but never produces a schema-valid payload,
`ValidateAndRetry` issues exactly `k + 1` provider calls and returns the
last payload, its validation findings, and the exhaustion error. -/
theorem validateAndRetry_exhaustion (validate : List Char → ValidationResult)
    (complete : Nat → List Char → Option (List Char))
    (input : List Char) (k : Nat)
    (hcall : ∀ n p, ∃ c, complete n p = some c ∧ (validate c).valid = false) :
    ∃ d, validateAndRetry validate complete input k =
        (some d, some (validate d), some (.exhausted k), k + 1) ∧
      (validate d).valid = false := by
  obtain ⟨c0, hc0, hc0val⟩ := hcall 0 input
  obtain ⟨d, hd, hdval⟩ :=
    retryLoop_exhausts validate complete input k hcall k 1 c0 (validate c0) 1
      rfl hc0val
  refine ⟨d, ?_, hdval⟩
  unfold validateAndRetry
  simp only [hc0]
  rw [if_neg (by simp [hc0val])]
  rw [hd]
  have : 1 + k = k + 1 := by omega
  rw [this]

/-- C3 (witness): a provider that always answers `"x"` and a validator
that rejects everything; with `maxRetries = 2`, three calls are issued
and exhaustion is reported with the last payload. -/
theorem validateAndRetry_exhaustion_witness :
    ∃ d, validateAndRetry (fun _ => ⟨false, []⟩) (fun _ _ => some (str "x"))
        (str "p") 2 =
      (some d, some ((fun (_ : List Char) => ⟨false, []⟩ : List Char → ValidationResult) d),
        some (.exhausted 2), 3) ∧
      ((fun (_ : List Char) => ⟨false, []⟩ : List Char → ValidationResult) d).valid = false :=
  validateAndRetry_exhaustion (fun _ => ⟨false, []⟩)
    (fun _ _ => some (str "x")) (str "p") 2
    (fun _ _ => ⟨str "x", rfl, rfl⟩)

/-! ## Lemmas and claim theorems: merge engine -/

/-- Under a provider that always succeeds, the incremental merge loop
issues one call per chunk. -/
theorem incLoop_trace_length (m : Merger)
    (complete : Nat → List Char → Option (List Char))
    (hc : ∀ n p, ∃ v, complete n p = some v) :
    ∀ (l : List (List Char)) (i k : Nat) (acc : ChunkResult),
      (incLoop m complete l i k acc).2.length = l.length := by
  intro l
  induction l with
  | nil => intro i k acc; rfl
  | cons ch rest ih =>
    intro i k acc
    obtain ⟨v, hv⟩ := hc k (createMergePrompt m acc.jsonData ch)
    simp only [incLoop, mergeWithPrevious, hv]
    simp [ih]

/-- C6: with the incremental strategy and a provider whose `Complete`
always succeeds, `ProcessChunks` over a non-empty chunk sequence issues
exactly one provider call per chunk (`n` calls for `n` chunks, `1` for a
single chunk). -/
theorem processChunks_incremental_call_count (m : Merger)
    (complete : Nat → List Char → Option (List Char))
    (chunks : List (List Char))
    (hstrat : m.options.strategy = strategyIncremental)
    (hc : ∀ n p, ∃ v, complete n p = some v)
    (hne : chunks ≠ []) :
    (processChunks m complete chunks).2.length = chunks.length := by
  match chunks, hne with
  | [c], _ =>
    obtain ⟨v, hv⟩ := hc 0 (createExtractionPrompt m c)
    simp [processChunks, processSingleChunk, hv]
  | c1 :: c2 :: cs, _ =>
    simp only [processChunks]
    rw [if_pos hstrat]
    obtain ⟨v, hv⟩ := hc 0 (createExtractionPrompt m c1)
    simp only [processIncremental, processSingleChunk, hv]
    simp [incLoop_trace_length m complete hc]

/-- C6 (witness): three chunks, incremental strategy, three calls. -/
theorem processChunks_incremental_call_count_witness :
    (processChunks mergerInc completeW [str "a", str "b", str "c"]).2.length = 3 :=
  processChunks_incremental_call_count mergerInc completeW
    [str "a", str "b", str "c"] rfl (fun _ _ => ⟨str "r", rfl⟩) (by simp)

/-- C10: a one-element chunk sequence is processed directly by the
single-chunk extraction path, for every merger configuration (the
strategy selector, valid or not, is never consulted): one extraction
call is issued and the chunk's result is returned with index 0. -/
theorem processChunks_single_chunk_spec (m : Merger)
    (complete : Nat → List Char → Option (List Char)) (c : List Char)
    (hc : ∀ n p, ∃ v, complete n p = some v) :
    (∀ s, processChunks m complete [c] =
      processChunks (setStrategy m s) complete [c]) ∧
    ∃ v, complete 0 (createExtractionPrompt m c) = some v ∧
      processChunks m complete [c] =
        (.ok ⟨0, c, v⟩, [createExtractionPrompt m c]) := by
  refine ⟨fun s => rfl, ?_⟩
  obtain ⟨v, hv⟩ := hc 0 (createExtractionPrompt m c)
  exact ⟨v, hv, by simp [processChunks, processSingleChunk, hv]⟩

/-- C10 (witness): a single chunk under a bogus strategy value still
yields one extraction call and the index-0 result. -/
theorem processChunks_single_chunk_spec_witness :
    (∀ s, processChunks mergerBogus completeW [str "x"] =
      processChunks (setStrategy mergerBogus s) completeW [str "x"]) ∧
    ∃ v, completeW 0 (createExtractionPrompt mergerBogus (str "x")) = some v ∧
      processChunks mergerBogus completeW [str "x"] =
        (.ok ⟨0, str "x", v⟩, [createExtractionPrompt mergerBogus (str "x")]) :=
  processChunks_single_chunk_spec mergerBogus completeW (str "x")
    (fun _ _ => ⟨str "r", rfl⟩)

/-- C8 (counterexample): with the unknown strategy `"bogus"` and the
one-element chunk sequence `["x"]`, `ProcessChunks` does not fail: it
issues one provider call and succeeds, because the single-chunk path
runs before the strategy switch — the claim's "for every chunk
sequence" fails on singletons. -/
theorem processChunks_unknownStrategy_cx :
    processChunks mergerBogus completeW [str "x"] =
      (.ok ⟨0, str "x", str "r"⟩,
        [createExtractionPrompt mergerBogus (str "x")]) ∧
    (processChunks mergerBogus completeW [str "x"]).2.length = 1 := by
  constructor
  · simp [processChunks, processSingleChunk, completeW]
  · rfl

/-- C8 (amended): for every strategy value outside the three named
strategies and every chunk sequence *with at least two chunks*,
`ProcessChunks` fails with the unknown-strategy configuration error
before issuing any provider call (the trace of issued prompts is
empty). -/
theorem processChunks_unknownStrategy_fails_fast (m : Merger)
    (complete : Nat → List Char → Option (List Char))
    (chunks : List (List Char))
    (hs1 : m.options.strategy ≠ strategyIncremental)
    (hs2 : m.options.strategy ≠ strategyTwoPass)
    (hs3 : m.options.strategy ≠ strategyTemplateDriven)
    (hlen : 2 ≤ chunks.length) :
    processChunks m complete chunks =
      (.error (.unknownStrategy m.options.strategy), []) := by
  match chunks, hlen with
  | c1 :: c2 :: cs, _ =>
    simp only [processChunks]
    rw [if_neg hs1, if_neg hs2, if_neg hs3]

/-- C8 (witness for the amended theorem): strategy `"bogus"`, two
chunks, immediate configuration error with zero provider calls. -/
theorem processChunks_unknownStrategy_fails_fast_witness :
    processChunks mergerBogus completeW [str "a", str "b"] =
      (.error (.unknownStrategy mergerBogus.options.strategy), []) :=
  processChunks_unknownStrategy_fails_fast mergerBogus completeW
    [str "a", str "b"] (by decide) (by decide) (by decide) (by simp)

/-- The extraction prompt, and hence `processSingleChunk`, depends only
on the merger's spec. -/
theorem processSingleChunk_spec_congr {m1 m2 : Merger}
    (hspec : m1.spec = m2.spec)
    (complete : Nat → List Char → Option (List Char)) (k : Nat)
    (ch : List Char) (idx : Int) :
    processSingleChunk m1 complete k ch idx =
      processSingleChunk m2 complete k ch idx := by
  simp [processSingleChunk, createExtractionPrompt, schemaTitle, hspec]

/-- The template-driven per-chunk loop is the two-pass phase-1 loop. -/
theorem templateLoop_eq_twoPassLoop {m1 m2 : Merger}
    (hspec : m1.spec = m2.spec)
    (complete : Nat → List Char → Option (List Char)) :
    ∀ (l : List (List Char)) (i k : Nat),
      templateLoop m1 complete l i k = twoPassLoop m2 complete l i k := by
  intro l
  induction l with
  | nil => intro i k; rfl
  | cons ch rest ih =>
    intro i k
    simp only [templateLoop, twoPassLoop,
      processSingleChunk_spec_congr hspec complete k ch (Int.ofNat i)]
    cases hres : processSingleChunk m2 complete k ch (Int.ofNat i) with
    | mk res tr =>
      cases res with
      | error e => rfl
      | ok r => simp only [ih]

/-- The consolidation step depends only on the spec and the instruction
text. -/
theorem mergeAllResults_congr {m1 m2 : Merger} (hspec : m1.spec = m2.spec)
    (hinstr : m1.options.instructions = m2.options.instructions)
    (complete : Nat → List Char → Option (List Char)) (k : Nat)
    (results : List ChunkResult) :
    mergeAllResults m1 complete k results =
      mergeAllResults m2 complete k results := by
  cases results with
  | nil => simp [mergeAllResults, createConsolidationPrompt, hspec, hinstr]
  | cons r rs =>
    cases rs with
    | nil => rfl
    | cons r2 rs2 =>
      simp [mergeAllResults, createConsolidationPrompt, hspec, hinstr]

/-- Two-pass and template-driven agree as whole pipelines whenever the
two mergers agree on spec and instruction text. -/
theorem processTwoPass_eq_processTemplateDriven {m1 m2 : Merger}
    (hspec : m1.spec = m2.spec)
    (hinstr : m1.options.instructions = m2.options.instructions)
    (complete : Nat → List Char → Option (List Char))
    (chunks : List (List Char)) :
    processTwoPass m1 complete chunks =
      processTemplateDriven m2 complete chunks := by
  unfold processTwoPass processTemplateDriven
  rw [← templateLoop_eq_twoPassLoop hspec.symm complete chunks 0 0]
  cases h : templateLoop m2 complete chunks 0 0 with
  | mk res tr =>
    cases res with
    | error e => rfl
    | ok rs =>
      unfold mergeByTemplate
      simp only [mergeAllResults_congr hspec hinstr]

/-- C7: the template-driven strategy is observably identical to the
two-pass strategy — for every merger, provider behaviour and chunk
sequence, `ProcessChunks` returns the same result and issues the same
prompt sequence under both selections. -/
theorem processChunks_templateDriven_eq_twoPass (m : Merger)
    (complete : Nat → List Char → Option (List Char))
    (chunks : List (List Char)) :
    processChunks (setStrategy m strategyTwoPass) complete chunks =
      processChunks (setStrategy m strategyTemplateDriven) complete chunks := by
  match chunks with
  | [] => rfl
  | [c] => rfl
  | c1 :: c2 :: cs =>
    simp only [processChunks, setStrategy, if_true,
      if_neg (by decide : ¬(strategyTwoPass = strategyIncremental)),
      if_neg (by decide : ¬(strategyTemplateDriven = strategyIncremental)),
      if_neg (by decide : ¬(strategyTemplateDriven = strategyTwoPass))]
    apply processTwoPass_eq_processTemplateDriven
    · rfl
    · rfl

/-- C9 (counterexample): with the non-empty custom instruction `"x"`,
the claim says the default instruction text appears nowhere in the
prompt; but a merge prompt whose new-chunk payload happens to contain
the default text (here the chunk *is* the default text) still contains
it verbatim — "nowhere" fails under content injection. -/
theorem mergePrompt_default_still_occurs_cx :
    mergerCustom.options.instructions ≠ [] ∧
    ∃ x y, createMergePrompt mergerCustom (str "prev") mergeInstrDefault =
      x ++ mergeInstrDefault ++ y := by
  refine ⟨by decide, ?_⟩
  refine ⟨str "You have existing extracted data and a new chunk of text to process. Merge the new information with the existing data according to the \"" ++
      schemaTitle mergerCustom ++ str "\" specification.\n\n" ++
      mergerCustom.options.instructions ++
      str "\n\nExisting extracted data:\n" ++ str "prev" ++
      str "\n\nNew chunk to merge:\n",
    str "\n\nJSON Schema Reference:\n" ++ mergerCustom.spec.schema ++
      str "\n\nProvide the merged result as valid JSON that follows the schema:",
    ?_⟩
  simp only [createMergePrompt]
  rw [if_neg (by decide : ¬(mergerCustom.options.instructions = []))]
  simp [List.append_assoc]

/-- C9 (amended): in every merge and consolidation prompt, the
instruction slot holds the default text verbatim when the caller's
instruction string is empty, and holds exactly the caller's string —
with the same surrounding template, the default not inserted — when it
is non-empty.  (The original claim's "the default text appears nowhere"
only fails when caller-controlled payload content itself contains the
default text, as the counterexample shows.) -/
theorem prompt_instructions_replacement (m : Merger) (prev chunk : List Char)
    (results : List (List Char)) :
    (m.options.instructions = [] →
      (∃ x y, createMergePrompt m prev chunk = x ++ mergeInstrDefault ++ y) ∧
      (∃ u w, createConsolidationPrompt m results =
        u ++ consInstrDefault ++ w)) ∧
    (m.options.instructions ≠ [] →
      (∃ x y, createMergePrompt m prev chunk =
          x ++ m.options.instructions ++ y ∧
        createMergePrompt (setInstructions m []) prev chunk =
          x ++ mergeInstrDefault ++ y) ∧
      (∃ u w, createConsolidationPrompt m results =
          u ++ m.options.instructions ++ w ∧
        createConsolidationPrompt (setInstructions m []) results =
          u ++ consInstrDefault ++ w)) := by
  constructor
  · intro h
    constructor
    · refine ⟨str "You have existing extracted data and a new chunk of text to process. Merge the new information with the existing data according to the \"" ++
          schemaTitle m ++ str "\" specification.\n\n",
        str "\n\nExisting extracted data:\n" ++ prev ++
          str "\n\nNew chunk to merge:\n" ++ chunk ++
          str "\n\nJSON Schema Reference:\n" ++ m.spec.schema ++
          str "\n\nProvide the merged result as valid JSON that follows the schema:",
        ?_⟩
      simp only [createMergePrompt, if_pos h]
      simp [List.append_assoc]
    · refine ⟨str "Consolidate the following partial extraction results into a single comprehensive result.\n\n",
        str "\n\nPartial results to consolidate:\n" ++ resultsBlock 0 results ++
          str "\n\nJSON Schema Reference:\n" ++ m.spec.schema ++
          str "\n\nProvide the consolidated result as valid JSON:",
        ?_⟩
      simp only [createConsolidationPrompt, if_pos h]
      simp [List.append_assoc]
  · intro h
    constructor
    · refine ⟨str "You have existing extracted data and a new chunk of text to process. Merge the new information with the existing data according to the \"" ++
          schemaTitle m ++ str "\" specification.\n\n",
        str "\n\nExisting extracted data:\n" ++ prev ++
          str "\n\nNew chunk to merge:\n" ++ chunk ++
          str "\n\nJSON Schema Reference:\n" ++ m.spec.schema ++
          str "\n\nProvide the merged result as valid JSON that follows the schema:",
        ?_, ?_⟩
      · simp only [createMergePrompt, if_neg h]
        simp [List.append_assoc]
      · simp only [createMergePrompt, setInstructions, if_pos rfl]
        simp [schemaTitle, List.append_assoc]
    · refine ⟨str "Consolidate the following partial extraction results into a single comprehensive result.\n\n",
        str "\n\nPartial results to consolidate:\n" ++ resultsBlock 0 results ++
          str "\n\nJSON Schema Reference:\n" ++ m.spec.schema ++
          str "\n\nProvide the consolidated result as valid JSON:",
        ?_, ?_⟩
      · simp only [createConsolidationPrompt, if_neg h]
        simp [List.append_assoc]
      · simp only [createConsolidationPrompt, setInstructions, if_pos rfl]
        simp [List.append_assoc]

/-- C9 (witness for the amended theorem) at the custom instruction
`"x"`. -/
theorem prompt_instructions_replacement_witness :
    (∃ x y, createMergePrompt mergerCustom (str "p") (str "c") =
        x ++ mergerCustom.options.instructions ++ y ∧
      createMergePrompt (setInstructions mergerCustom []) (str "p") (str "c") =
        x ++ mergeInstrDefault ++ y) ∧
    (∃ u w, createConsolidationPrompt mergerCustom [str "j"] =
        u ++ mergerCustom.options.instructions ++ w ∧
      createConsolidationPrompt (setInstructions mergerCustom []) [str "j"] =
        u ++ consInstrDefault ++ w) :=
  (prompt_instructions_replacement mergerCustom (str "p") (str "c")
    [str "j"]).2 (by decide)
